import Mathlib

/-!
Verification of the `misc_tools.h` containers (ProjectTox-Core).

The development shallowly embeds the two source headers:
* `src/toxcore/misc_tools.h` — intrusive circular doubly-linked list
  (`tox_list`), owned dynamic array (`tox_array`), and the macro-generated
  quicksort (`make_quick_sort`);
* `src/testing/misc_tools.h` — the earlier variants of the array operations
  (namespace `testing` below).

Modelling conventions:
* byte buffers are `List Nat`; a `uint8_t *` that may be `NULL` is
  `Option (List Nat)` (`none` = `NULL`);
* `realloc`/`malloc` success is an explicit `allocOk : Bool` oracle argument;
  the contents of freshly allocated bytes, unspecified in C, are modelled as 0;
* `uint32_t len` is a `Nat`; the one place where modular wrap-around is
  reachable with small inputs (`arr->len -= num` in the testing `tox_array_pop`)
  is modelled with an explicit `% 2^32` (written `4294967296`);
* pointers to `tox_list` nodes are `Nat` identifiers into an explicit heap
  `Nat → tox_list`; `GET_PARENT` host-record recovery is modelled as the
  identity on node identifiers (one host per embedded node).
-/

namespace MiscTools

/-! ### Byte-buffer primitives -/

/-- Model of `realloc(old, newSize)` on success: the first `newSize` bytes are
preserved, any newly allocated bytes are unspecified (modelled as `0`). -/
def reallocBytes (old : List Nat) (newSize : Nat) : List Nat :=
  old.take newSize ++ List.replicate (newSize - old.length) 0

/-- Model of `memcpy(dst + off, src, src.length)` inside the buffer `dst`. -/
def memcpy_at (dst : List Nat) (off : Nat) (src : List Nat) : List Nat :=
  dst.take off ++ src ++ dst.drop (off + src.length)

/-! ### Owned dynamic array: `tox_array` (src/toxcore/misc_tools.h lines 138-205) -/

/-- `struct tox_array { uint8_t *data; uint32_t len; size_t elem_size; }`.
`data = none` models a `NULL` pointer. -/
structure tox_array where
  data : Option (List Nat)
  len : Nat
  elem_size : Nat
deriving DecidableEq

/-- The bytes behind `arr.data` (`NULL` reads as the empty buffer). -/
def bytesOf (arr : tox_array) : List Nat := arr.data.getD []

/-- `tox_array_init` (toxcore lines 144-149): `len = 0`, records `elem_size`,
`data = NULL`; no allocation. The C function initialises through a pointer;
the model returns the initialised value. -/
def tox_array_init (elem_size : Nat) : tox_array :=
  { data := none, len := 0, elem_size := elem_size }

/-- `tox_array_delete` (toxcore lines 151-155): `free(arr->data)` then
`arr->len = arr->elem_size = 0`.  The source does NOT reset `arr->data`, so the
pointer value survives as a dangling pointer: the model keeps `data` unchanged
(its bytes are no longer valid to read; no later operation of this development
reads them after a `delete`). -/
def tox_array_delete (arr : tox_array) : tox_array :=
  { arr with len := 0, elem_size := 0 }

/-- `tox_array_push_ptr` (toxcore lines 157-170): grow by one element via
`realloc`; on failure (`temp == NULL`, modelled `allocOk = false`) return
leaving `len` and `data` unchanged; on success copy `elem_size` bytes from
`item` (when non-`NULL`) into the new slot and increment `len`.

The returned `Int` is the value of the executed `return` statement: `0` on the
failure path.  NOTE: the source declares the function `void` yet executes
`return 0;` — a C constraint violation; the success path falls off the end.
The model gives the success path the status `1` of the evidently intended
`uint8_t` signature (compare the `testing` variant, which returns `1`). -/
def tox_array_push_ptr (arr : tox_array) (item : Option (List Nat))
    (allocOk : Bool) : tox_array × Int :=
  if allocOk then
    let grown := reallocBytes (bytesOf arr) (arr.elem_size * (arr.len + 1))
    let newData :=
      match item with
      | some bytes => memcpy_at grown (arr.elem_size * arr.len) bytes
      | none => grown
    ({ arr with data := some newData, len := arr.len + 1 }, 1)
  else
    (arr, 0)

/-- `tox_array_pop` (toxcore lines 176-198): `num == 0` returns at once;
`num > len` returns at once; `num == len` frees the buffer and zeroes `len`;
otherwise shrink via `realloc` (failure leaves `len` and `data` unchanged). -/
def tox_array_pop (arr : tox_array) (num : Nat) (allocOk : Bool) : tox_array :=
  if num = 0 then arr
  else if arr.len < num then arr
  else if arr.len = num then { arr with data := none, len := 0 }
  else if allocOk then
    { arr with
      data := some (reallocBytes (bytesOf arr) (arr.elem_size * (arr.len - num))),
      len := arr.len - num }
  else arr

/-- `tox_array_get` (toxcore line 201): `((type*)(arr)->data)[i]`, i.e. the
`elem_size` bytes at byte offset `elem_size * i`. -/
def tox_array_get (arr : tox_array) (i : Nat) : List Nat :=
  ((bytesOf arr).drop (arr.elem_size * i)).take arr.elem_size

namespace testing

/-- `tox_array_push_ptr` (src/testing/misc_tools.h lines 160-168):
`arr->data = realloc(...)` with the result assigned unconditionally — on
allocation failure `data` becomes `NULL` and the subsequent `memcpy` writes
through `NULL` (undefined behaviour in C; the write is modelled as lost) —
then `arr->len++`, and `1` is returned in every case. -/
def tox_array_push_ptr (arr : tox_array) (item : Option (List Nat))
    (allocOk : Bool) : tox_array × Int :=
  let newData : Option (List Nat) :=
    if allocOk then some (reallocBytes (bytesOf arr) (arr.elem_size * (arr.len + 1)))
    else none
  let newData2 : Option (List Nat) :=
    match newData, item with
    | some buf, some bytes => some (memcpy_at buf (arr.elem_size * arr.len) bytes)
    | none, some _ => none
    | d, none => d
  ({ arr with data := newData2, len := arr.len + 1 }, 1)

/-- `tox_array_pop` (src/testing/misc_tools.h lines 174-180): `num == 0` is
turned into `num = 1`; `arr->len -= num` on the `uint32_t` field wraps modulo
`2^32` (reachable, so modelled explicitly); then
`arr->data = realloc(arr->data, arr->elem_size * arr->len)` is assigned
unconditionally — a failing `realloc`, or `realloc(p, 0)` (which glibc treats
as `free` returning `NULL`), leaves `data = NULL`. -/
def tox_array_pop (arr : tox_array) (num : Nat) (allocOk : Bool) : tox_array :=
  let num' := if num = 0 then 1 else num
  let len' := (arr.len + 4294967296 - num' % 4294967296) % 4294967296
  let newData : Option (List Nat) :=
    if allocOk = true ∧ 0 < arr.elem_size * len'
    then some (reallocBytes (bytesOf arr) (arr.elem_size * len'))
    else none
  { arr with data := newData, len := len' }

end testing

/-! ### Reachable array states -/

/-- One array operation, with its allocation-oracle outcome. -/
inductive ArrOp where
  | push : Option (List Nat) → Bool → ArrOp
  | pop : Nat → Bool → ArrOp
  | delete : ArrOp
deriving DecidableEq

/-- Apply one toxcore array operation. -/
def applyArrOp (arr : tox_array) : ArrOp → tox_array
  | ArrOp.push item ok => (tox_array_push_ptr arr item ok).1
  | ArrOp.pop num ok => tox_array_pop arr num ok
  | ArrOp.delete => tox_array_delete arr

/-- The state reached from `tox_array_init s` by a sequence of operations. -/
def runArrOps (s : Nat) (ops : List ArrOp) : tox_array :=
  ops.foldl applyArrOp (tox_array_init s)

/-- The claimed representation invariant: `data` is `NULL` iff `len = 0`. -/
def nullIffEmpty (arr : tox_array) : Prop := arr.data = none ↔ arr.len = 0

/-- Pushing a list of element images (all non-`NULL`, all allocations
succeeding), left to right. -/
def pushAll (arr : tox_array) (items : List (List Nat)) : tox_array :=
  items.foldl (fun a bs => (tox_array_push_ptr a (some bs) true).1) arr

/-! ### Array lemmas -/

theorem reallocBytes_of_le (old : List Nat) (k : Nat) (h : k ≤ old.length) :
    reallocBytes old k = old.take k := by
  simp [reallocBytes, Nat.sub_eq_zero_of_le h]

theorem reallocBytes_grow (old : List Nat) (k : Nat) (h : old.length ≤ k) :
    reallocBytes old k = old ++ List.replicate (k - old.length) 0 := by
  simp [reallocBytes, List.take_of_length_le h]

/-- A successful push with a full element image appends the element's bytes. -/
theorem tox_array_push_ptr_step (arr : tox_array) (bs : List Nat)
    (hinv : (bytesOf arr).length = arr.elem_size * arr.len)
    (hbs : bs.length = arr.elem_size) :
    (tox_array_push_ptr arr (some bs) true).1 =
      { data := some (bytesOf arr ++ bs), len := arr.len + 1,
        elem_size := arr.elem_size } := by
  have hle : (bytesOf arr).length ≤ arr.elem_size * (arr.len + 1) := by
    rw [hinv]; exact Nat.mul_le_mul_left _ (Nat.le_succ _)
  have hgrow := reallocBytes_grow (bytesOf arr) (arr.elem_size * (arr.len + 1)) hle
  have hrep : arr.elem_size * (arr.len + 1) - (bytesOf arr).length = arr.elem_size := by
    rw [hinv, Nat.mul_succ]; omega
  rw [hrep] at hgrow
  simp only [tox_array_push_ptr, if_pos rfl, hgrow, memcpy_at]
  have htake : (bytesOf arr ++ List.replicate arr.elem_size 0).take (arr.elem_size * arr.len)
      = bytesOf arr := List.take_left' hinv
  have hdrop : (bytesOf arr ++ List.replicate arr.elem_size 0).drop
      (arr.elem_size * arr.len + bs.length) = [] := by
    rw [List.drop_eq_nil_iff]
    simp [hinv, hbs]
  rw [htake, hdrop]
  simp

/-- State of the array after pushing a uniform-size batch from a consistent
state: `len` grows by the batch length and the bytes are appended in order. -/
theorem pushAll_spec : ∀ (items : List (List Nat)) (arr : tox_array),
    (bytesOf arr).length = arr.elem_size * arr.len →
    (∀ bs ∈ items, bs.length = arr.elem_size) →
    (pushAll arr items).elem_size = arr.elem_size ∧
    (pushAll arr items).len = arr.len + items.length ∧
    bytesOf (pushAll arr items) = bytesOf arr ++ items.flatten
  | [], arr, _, _ => by simp [pushAll]
  | bs :: items, arr, hinv, hall => by
    have hbs : bs.length = arr.elem_size := hall bs (by simp)
    have hstep := tox_array_push_ptr_step arr bs hinv hbs
    have hpush : pushAll arr (bs :: items) =
        pushAll ((tox_array_push_ptr arr (some bs) true).1) items := by
      simp [pushAll]
    set arr' : tox_array :=
      { data := some (bytesOf arr ++ bs), len := arr.len + 1,
        elem_size := arr.elem_size } with harr'
    have hinv' : (bytesOf arr').length = arr'.elem_size * arr'.len := by
      have hlen : (bytesOf arr ++ bs).length = arr.elem_size * (arr.len + 1) := by
        rw [List.length_append, hinv, hbs, Nat.mul_succ]
      simpa [harr', bytesOf] using hlen
    have hall' : ∀ b ∈ items, b.length = arr'.elem_size := by
      intro b hb; simpa [harr'] using hall b (by simp [hb])
    have ih := pushAll_spec items arr' hinv' hall'
    rw [hpush, hstep]
    refine ⟨by simpa [harr'] using ih.1, ?_, ?_⟩
    · rw [ih.2.1]; simp [harr']; omega
    · rw [ih.2.2]; simp [harr', bytesOf]

/-- Reading element `i` out of the concatenation of `k` uniform-size images. -/
theorem flatten_uniform_get (s : Nat) : ∀ (items : List (List Nat)) (i : Nat),
    (∀ bs ∈ items, bs.length = s) → i < items.length →
    ((items.flatten).drop (s * i)).take s = items.getD i []
  | [], i, _, hi => by simp at hi
  | bs :: items, 0, hall, _ => by
    have hbs : bs.length = s := hall bs (by simp)
    simp only [List.flatten_cons, Nat.mul_zero, List.drop_zero, List.getD_cons_zero]
    rw [List.take_append_of_le_length (by omega), ← hbs, List.take_length]
  | bs :: items, i + 1, hall, hi => by
    have hbs : bs.length = s := hall bs (by simp)
    have hall' : ∀ b ∈ items, b.length = s := fun b hb => hall b (by simp [hb])
    have hi' : i < items.length := by simpa using hi
    have hmul : s * (i + 1) = bs.length + s * i := by rw [hbs]; ring
    simp only [List.flatten_cons, List.getD_cons_succ, hmul, List.drop_append]
    exact flatten_uniform_get s items i hall' hi'

/-! ### Claim theorems: the dynamic array -/

/-- C10: for every array and every `num > len`, the toxcore `tox_array_pop`
returns at once, leaving the array (both `len` and `data`) unchanged. -/
theorem tox_array_pop_oversize_is_noop (arr : tox_array) (num : Nat) (ok : Bool)
    (h : arr.len < num) : tox_array_pop arr num ok = arr := by
  have h0 : ¬ num = 0 := by omega
  simp [tox_array_pop, h0, h]

/-- Witness for C10 at a concrete oversize pop. -/
theorem tox_array_pop_oversize_is_noop_witness :
    tox_array_pop { data := some [7, 8], len := 2, elem_size := 1 } 5 true
      = { data := some [7, 8], len := 2, elem_size := 1 } :=
  tox_array_pop_oversize_is_noop _ 5 true (by decide)

/-- C2: on allocation failure the toxcore push returns (with `return 0`)
leaving both `len` and `data` unchanged, while the testing push ignores the
failure: it bumps `len` and overwrites `data` with the `NULL` result of
`realloc`.  (The toxcore source declares the function `void`, so the `0` it
returns never reaches the caller — see the doc comment on
`tox_array_push_ptr`; this theorem records what the two bodies do.) -/
theorem tox_array_push_ptr_alloc_failure (arr : tox_array) (item : Option (List Nat)) :
    (tox_array_push_ptr arr item false).1 = arr ∧
    (tox_array_push_ptr arr item false).2 = 0 ∧
    (testing.tox_array_push_ptr arr item false).1.len = arr.len + 1 ∧
    (testing.tox_array_push_ptr arr item false).1.data = none := by
  refine ⟨by simp [tox_array_push_ptr], by simp [tox_array_push_ptr], ?_, ?_⟩
  · simp [testing.tox_array_push_ptr]
  · cases item <;> simp [testing.tox_array_push_ptr]

/-- C5: `pop(num)` with `1 ≤ num ≤ len` removes the last `num` elements by
shrinking the buffer; `pop(0)` is a no-op in the toxcore variant and removes
exactly one element in the testing variant. -/
theorem tox_array_pop_semantics :
    (∀ (arr : tox_array) (num : Nat), 1 ≤ num → num ≤ arr.len →
      (bytesOf arr).length = arr.elem_size * arr.len →
      (tox_array_pop arr num true).len = arr.len - num ∧
      bytesOf (tox_array_pop arr num true)
        = (bytesOf arr).take (arr.elem_size * (arr.len - num))) ∧
    (∀ (arr : tox_array) (ok : Bool), tox_array_pop arr 0 ok = arr) ∧
    (∀ (arr : tox_array) (ok : Bool), 1 ≤ arr.len → arr.len < 4294967296 →
      (testing.tox_array_pop arr 0 ok).len = arr.len - 1) := by
  refine ⟨?_, ?_, ?_⟩
  · intro arr num h1 h2 hinv
    rcases Nat.lt_or_ge arr.len num with hlt | hge
    · omega
    rcases Nat.eq_or_lt_of_le hge with heq | hlt
    · have h0 : ¬ num = 0 := by omega
      have hnot : ¬ arr.len < num := by omega
      simp [tox_array_pop, h0, hnot, heq.symm, bytesOf, Nat.sub_self]
    · have h0 : ¬ num = 0 := by omega
      have hnot : ¬ arr.len < num := by omega
      have hne : ¬ arr.len = num := by omega
      have hle : arr.elem_size * (arr.len - num) ≤ (bytesOf arr).length := by
        rw [hinv]; exact Nat.mul_le_mul_left _ (Nat.sub_le _ _)
      have hpop : tox_array_pop arr num true =
          { arr with
            data := some (reallocBytes (bytesOf arr) (arr.elem_size * (arr.len - num))),
            len := arr.len - num } := by
        simp [tox_array_pop, h0, hnot, hne]
      rw [hpop]
      exact ⟨rfl, reallocBytes_of_le _ _ hle⟩
  · intro arr ok; simp [tox_array_pop]
  · intro arr ok h1 h2
    show (arr.len + 4294967296 - (if (0 : Nat) = 0 then 1 else 0) % 4294967296) % 4294967296
        = arr.len - 1
    rw [if_pos rfl]
    omega

/-- Witness for C5 on concrete arrays: popping 1 of 2 elements shrinks the
buffer, toxcore `pop(0)` is a no-op, testing `pop(0)` removes one element. -/
theorem tox_array_pop_semantics_witness :
    ((tox_array_pop { data := some [3, 4], len := 2, elem_size := 1 } 1 true).len = 1 ∧
      bytesOf (tox_array_pop { data := some [3, 4], len := 2, elem_size := 1 } 1 true)
        = [3, 4].take 1) ∧
    tox_array_pop { data := some [3, 4], len := 2, elem_size := 1 } 0 true
      = { data := some [3, 4], len := 2, elem_size := 1 } ∧
    (testing.tox_array_pop { data := some [3, 4], len := 2, elem_size := 1 } 0 true).len = 1 :=
  ⟨tox_array_pop_semantics.1 _ 1 (by decide) (by decide) (by decide),
   tox_array_pop_semantics.2.1 _ true,
   tox_array_pop_semantics.2.2 _ true (by decide) (by decide)⟩

/-- C6: `pop(len)` on a non-empty array frees the buffer (`data = NULL`) and
zeroes `len`, in both variants; a subsequent successful push re-grows the
array from empty: `len = 1` and the pushed bytes are stored. -/
theorem tox_array_pop_all_then_push (arr : tox_array) (bytes : List Nat) (ok : Bool)
    (h1 : 1 ≤ arr.len) (h2 : bytes.length = arr.elem_size) (h3 : arr.len < 4294967296) :
    (tox_array_pop arr arr.len ok).data = none ∧
    (tox_array_pop arr arr.len ok).len = 0 ∧
    (tox_array_push_ptr (tox_array_pop arr arr.len ok) (some bytes) true).1.len = 1 ∧
    bytesOf (tox_array_push_ptr (tox_array_pop arr arr.len ok) (some bytes) true).1 = bytes ∧
    (testing.tox_array_pop arr arr.len ok).data = none ∧
    (testing.tox_array_pop arr arr.len ok).len = 0 ∧
    (testing.tox_array_push_ptr (testing.tox_array_pop arr arr.len ok)
      (some bytes) true).1.len = 1 ∧
    bytesOf (testing.tox_array_push_ptr (testing.tox_array_pop arr arr.len ok)
      (some bytes) true).1 = bytes := by
  have h0 : ¬ arr.len = 0 := by omega
  have hnot : ¬ arr.len < arr.len := by omega
  have hpop : tox_array_pop arr arr.len ok
      = { data := none, len := 0, elem_size := arr.elem_size } := by
    simp [tox_array_pop, h0, hnot]
  have hlen0 : (arr.len + 4294967296 - arr.len % 4294967296) % 4294967296 = 0 := by
    omega
  have htpop : testing.tox_array_pop arr arr.len ok
      = { data := none, len := 0, elem_size := arr.elem_size } := by
    simp only [testing.tox_array_pop, if_neg h0, hlen0]
    simp
  have hkey : (tox_array_push_ptr { data := none, len := 0, elem_size := arr.elem_size }
      (some bytes) true).1 = { data := some bytes, len := 1, elem_size := arr.elem_size } := by
    simp [tox_array_push_ptr, bytesOf, reallocBytes, memcpy_at, h2, List.drop_eq_nil_iff]
  have hkey2 : (testing.tox_array_push_ptr { data := none, len := 0, elem_size := arr.elem_size }
      (some bytes) true).1 = { data := some bytes, len := 1, elem_size := arr.elem_size } := by
    simp [testing.tox_array_push_ptr, bytesOf, reallocBytes, memcpy_at, h2,
      List.drop_eq_nil_iff]
  refine ⟨by rw [hpop], by rw [hpop], ?_, ?_, by rw [htpop], by rw [htpop], ?_, ?_⟩
  · rw [hpop, hkey]
  · rw [hpop, hkey]; simp [bytesOf]
  · rw [htpop, hkey2]
  · rw [htpop, hkey2]; simp [bytesOf]

/-- Witness for C6 at a concrete one-element array. -/
theorem tox_array_pop_all_then_push_witness :
    (tox_array_pop { data := some [9], len := 1, elem_size := 1 } 1 true).data = none ∧
    (tox_array_pop { data := some [9], len := 1, elem_size := 1 } 1 true).len = 0 ∧
    (tox_array_push_ptr (tox_array_pop { data := some [9], len := 1, elem_size := 1 } 1 true)
      (some [4]) true).1.len = 1 ∧
    bytesOf (tox_array_push_ptr
      (tox_array_pop { data := some [9], len := 1, elem_size := 1 } 1 true)
      (some [4]) true).1 = [4] ∧
    (testing.tox_array_pop { data := some [9], len := 1, elem_size := 1 } 1 true).data = none ∧
    (testing.tox_array_pop { data := some [9], len := 1, elem_size := 1 } 1 true).len = 0 ∧
    (testing.tox_array_push_ptr
      (testing.tox_array_pop { data := some [9], len := 1, elem_size := 1 } 1 true)
      (some [4]) true).1.len = 1 ∧
    bytesOf (testing.tox_array_push_ptr
      (testing.tox_array_pop { data := some [9], len := 1, elem_size := 1 } 1 true)
      (some [4]) true).1 = [4] :=
  tox_array_pop_all_then_push _ [4] true (by decide) (by decide) (by decide)

/-- C7: after `k` successful pushes of non-`NULL` element images of size
`elem_size = s` into a freshly initialised array, `len = k` and `get i`
returns exactly the `i`-th pushed image, for every `i < k`. -/
theorem tox_array_push_get (s : Nat) (items : List (List Nat))
    (hlen : ∀ bs ∈ items, bs.length = s) :
    (pushAll (tox_array_init s) items).len = items.length ∧
    ∀ i, i < items.length →
      tox_array_get (pushAll (tox_array_init s) items) i = items.getD i [] := by
  have hinv : (bytesOf (tox_array_init s)).length
      = (tox_array_init s).elem_size * (tox_array_init s).len := by
    simp [bytesOf, tox_array_init]
  have hspec := pushAll_spec items (tox_array_init s) hinv (by simpa [tox_array_init] using hlen)
  have hbytes : bytesOf (pushAll (tox_array_init s) items) = items.flatten := by
    rw [hspec.2.2]; simp [bytesOf, tox_array_init]
  refine ⟨by rw [hspec.2.1]; simp [tox_array_init], ?_⟩
  intro i hi
  have hs : (pushAll (tox_array_init s) items).elem_size = s := by
    rw [hspec.1]; simp [tox_array_init]
  rw [tox_array_get, hbytes, hs]
  exact flatten_uniform_get s items i hlen hi

/-- Witness for C7: pushing the two one-byte elements `[3]` and `[7]`. -/
theorem tox_array_push_get_witness :
    (pushAll (tox_array_init 1) [[3], [7]]).len = 2 ∧
    ∀ i, i < 2 → tox_array_get (pushAll (tox_array_init 1) [[3], [7]]) i
      = [[3], [7]].getD i [] := by
  have h := tox_array_push_get 1 [[3], [7]] (by decide)
  exact ⟨h.1, by simpa using h.2⟩

/-- One push or pop step preserves the `NULL`-iff-empty invariant. -/
theorem applyArrOp_preserves_nullIffEmpty (arr : tox_array) (op : ArrOp)
    (hop : op ≠ ArrOp.delete) (h : nullIffEmpty arr) :
    nullIffEmpty (applyArrOp arr op) := by
  cases op with
  | push item ok =>
    cases ok with
    | false => simpa [applyArrOp, tox_array_push_ptr] using h
    | true => simp [applyArrOp, tox_array_push_ptr, nullIffEmpty]
  | pop num ok =>
    by_cases h0 : num = 0
    · simpa [applyArrOp, tox_array_pop, h0] using h
    by_cases hlt : arr.len < num
    · simpa [applyArrOp, tox_array_pop, h0, hlt] using h
    by_cases heq : arr.len = num
    · simp [applyArrOp, tox_array_pop, h0, hlt, heq, nullIffEmpty]
    cases ok with
    | false => simpa [applyArrOp, tox_array_pop, h0, hlt, heq] using h
    | true =>
      simp only [applyArrOp, tox_array_pop, h0, hlt, heq, if_false, if_true,
        if_neg, nullIffEmpty]
      constructor
      · intro habs; cases habs
      · intro habs; omega
  | delete => exact absurd rfl hop

/-- C8 (amended): every state reachable from `tox_array_init` by pushes and
pops satisfies `data = NULL ↔ len = 0`; `init` establishes it with no
allocation.  (`tox_array_delete` is excluded: it breaks the invariant, see
the counterexample.) -/
theorem push_pop_preserve_null_iff_empty (s : Nat) (ops : List ArrOp)
    (h : ∀ op ∈ ops, op ≠ ArrOp.delete) : nullIffEmpty (runArrOps s ops) := by
  have key : ∀ (l : List ArrOp) (arr : tox_array), nullIffEmpty arr →
      (∀ op ∈ l, op ≠ ArrOp.delete) → nullIffEmpty (l.foldl applyArrOp arr) := by
    intro l
    induction l with
    | nil => intro arr h _; exact h
    | cons op rest ih =>
      intro arr harr hall
      exact ih (applyArrOp arr op)
        (applyArrOp_preserves_nullIffEmpty arr op (hall op (by simp)) harr)
        (fun o ho => hall o (by simp [ho]))
  exact key ops (tox_array_init s) (by simp [nullIffEmpty, tox_array_init]) h

/-- Witness for C8 (amended) on a concrete push/pop sequence. -/
theorem push_pop_preserve_null_iff_empty_witness :
    nullIffEmpty (runArrOps 1 [ArrOp.push (some [5]) true, ArrOp.pop 1 true]) :=
  push_pop_preserve_null_iff_empty 1 _ (by decide)

/-- Counterexample to C8 as stated: `tox_array_delete` zeroes `len` but leaves
the freed `data` pointer unchanged (dangling), so after `push; delete` the
state has `len = 0` with a non-`NULL` `data`. -/
theorem delete_breaks_null_iff_empty :
    (runArrOps 1 [ArrOp.push (some [5]) true, ArrOp.delete]).len = 0 ∧
    (runArrOps 1 [ArrOp.push (some [5]) true, ArrOp.delete]).data ≠ none := by
  decide

/-! ### Intrusive circular doubly-linked list: `tox_list`
(src/toxcore/misc_tools.h lines 101-130)

Nodes are identified by `Nat` addresses into an explicit heap.  `GET_PARENT`
recovers the host record enclosing a node by constant pointer arithmetic; the
model identifies a host record with the address of its embedded node, so a
traversal yields node addresses. -/

/-- `struct tox_list { struct tox_list *prev, *next; }`. -/
structure tox_list where
  prev : Nat
  next : Nat
deriving DecidableEq

/-- The node heap: contents of every node address. -/
def Heap : Type := Nat → tox_list

/-- Store to `x->prev`. -/
def writePrev (h : Heap) (x v : Nat) : Heap :=
  fun y => if y = x then { h x with prev := v } else h y

/-- Store to `x->next`. -/
def writeNext (h : Heap) (x v : Nat) : Heap :=
  fun y => if y = x then { h x with next := v } else h y

/-- `tox_list_init` (toxcore lines 106-109): `lst->prev = lst->next = lst`. -/
def tox_list_init (h : Heap) (lst : Nat) : Heap :=
  writeNext (writePrev h lst lst) lst lst

/-- `tox_list_add` (toxcore lines 114-123), statement by statement:
`tox_list_init(new_lst); new_lst->next = lst->next;
new_lst->next->prev = new_lst; lst->next = new_lst; new_lst->prev = lst;`. -/
def tox_list_add (h : Heap) (lst new_lst : Nat) : Heap :=
  let h1 := tox_list_init h new_lst
  let h2 := writeNext h1 new_lst (h1 lst).next
  let h3 := writePrev h2 ((h2 new_lst).next) new_lst
  let h4 := writeNext h3 lst new_lst
  writePrev h4 new_lst lst

/-- `tox_list_remove` (toxcore lines 126-130):
`lst->prev->next = lst->next; lst->next->prev = lst->prev;`
(the second statement reads `lst` from the heap after the first store). -/
def tox_list_remove (h : Heap) (lst : Nat) : Heap :=
  let h1 := writeNext h ((h lst).prev) ((h lst).next)
  writePrev h1 ((h1 lst).next) ((h1 lst).prev)

@[simp] theorem writePrev_next (h : Heap) (a v x : Nat) :
    ((writePrev h a v) x).next = (h x).next := by
  simp only [writePrev]
  split
  · next heq => subst heq; rfl
  · rfl

@[simp] theorem writeNext_prev (h : Heap) (a v x : Nat) :
    ((writeNext h a v) x).prev = (h x).prev := by
  simp only [writeNext]
  split
  · next heq => subst heq; rfl
  · rfl

theorem writePrev_prev (h : Heap) (a v x : Nat) :
    ((writePrev h a v) x).prev = if x = a then v else (h x).prev := by
  simp only [writePrev]
  split <;> rfl

theorem writeNext_next (h : Heap) (a v x : Nat) :
    ((writeNext h a v) x).next = if x = a then v else (h x).next := by
  simp only [writeNext]
  split <;> rfl

/-- `linked h a l b`: starting at node `a`, following `next` passes exactly
through the nodes of `l` and then reaches `b`, with every `prev` pointer along
the way mirroring the `next` step into it. -/
def linked (h : Heap) : Nat → List Nat → Nat → Prop
  | a, [], b => (h a).next = b ∧ (h b).prev = a
  | a, x :: xs, b => (h a).next = x ∧ (h x).prev = a ∧ linked h x xs b

/-- The head `head` carries the circular chain whose members, in link order,
are `members`. -/
def chainOf (h : Heap) (head : Nat) (members : List Nat) : Prop :=
  linked h head members head

/-- Claim C3's per-node invariant: `n.next.prev == n` and `n.prev.next == n`
for every node of the chain. -/
def mutualInv (h : Heap) (nodes : List Nat) : Prop :=
  ∀ n ∈ nodes, (h ((h n).next)).prev = n ∧ (h ((h n).prev)).next = n

theorem linked_append (h : Heap) :
    ∀ (xs : List Nat) (a x : Nat) (ys : List Nat) (b : Nat),
    linked h a (xs ++ x :: ys) b ↔ linked h a xs x ∧ linked h x ys b
  | [], a, x, ys, b => by simp [linked, and_assoc]
  | z :: zs, a, x, ys, b => by
    simp only [List.cons_append, linked, List.append_eq,
      linked_append h zs z x ys b, and_assoc]

theorem linked_congr (h h' : Heap) :
    ∀ (a : Nat) (l : List Nat) (b : Nat),
    (∀ x ∈ a :: l, (h' x).next = (h x).next) →
    (∀ x ∈ l ++ [b], (h' x).prev = (h x).prev) →
    linked h a l b → linked h' a l b
  | a, [], b, hn, hp, hl => by
    obtain ⟨h1, h2⟩ := hl
    exact ⟨by rw [hn a (by simp), h1], by rw [hp b (by simp), h2]⟩
  | a, x :: xs, b, hn, hp, hl => by
    obtain ⟨h1, h2, h3⟩ := hl
    refine ⟨by rw [hn a (by simp), h1], by rw [hp x (by simp), h2], ?_⟩
    exact linked_congr h h' x xs b (fun y hy => hn y (by simp [hy]))
      (fun y hy => hp y (by revert hy; simp; tauto)) h3

theorem linked_next_cycle (h : Heap) :
    ∀ (a : Nat) (l : List Nat) (b : Nat), linked h a l b →
    ∀ n ∈ a :: l, (h ((h n).next)).prev = n
  | a, [], b, hl, n, hn => by
    obtain ⟨h1, h2⟩ := hl
    have : n = a := by simpa using hn
    subst this; rw [h1, h2]
  | a, x :: xs, b, hl, n, hn => by
    obtain ⟨h1, h2, h3⟩ := hl
    rcases List.mem_cons.1 hn with heq | hmem
    · subst heq; rw [h1, h2]
    · exact linked_next_cycle h x xs b h3 n hmem

theorem linked_prev_cycle (h : Heap) :
    ∀ (a : Nat) (l : List Nat) (b : Nat), linked h a l b →
    ∀ n ∈ l ++ [b], (h ((h n).prev)).next = n
  | a, [], b, hl, n, hn => by
    obtain ⟨h1, h2⟩ := hl
    have : n = b := by simpa using hn
    subst this; rw [h2, h1]
  | a, x :: xs, b, hl, n, hn => by
    obtain ⟨h1, h2, h3⟩ := hl
    rcases List.mem_cons.1 hn with heq | hmem
    · subst heq; rw [h2, h1]
    · exact linked_prev_cycle h x xs b h3 n hmem

/-- In a chain, every node satisfies the prev/next mutual invariant. -/
theorem chainOf_mutualInv (h : Heap) (head : Nat) (members : List Nat)
    (hc : chainOf h head members) : mutualInv h (head :: members) := by
  intro n hn
  refine ⟨linked_next_cycle h head members head hc n hn, ?_⟩
  refine linked_prev_cycle h head members head hc n ?_
  rcases List.mem_cons.1 hn with heq | hmem
  · subst heq; simp
  · simp [hmem]

theorem linked_last (h : Heap) :
    ∀ (a : Nat) (l : List Nat) (b : Nat), linked h a l b →
    (h b).prev = l.getLastD a ∧ (h (l.getLastD a)).next = b
  | a, [], b, hl => ⟨hl.2, hl.1⟩
  | a, x :: xs, b, hl => by
    rw [List.getLastD_cons]
    exact linked_last h x xs b hl.2.2

theorem linked_first (h : Heap) (a : Nat) (l : List Nat) (b : Nat)
    (hl : linked h a l b) : (h a).next = l.headD b ∧ (h (l.headD b)).prev = a := by
  cases l with
  | nil => simpa [linked] using hl
  | cons x xs => exact ⟨hl.1, hl.2.1⟩

/-- Redirect the end of a linked segment: if only the last node's `next` and
the new endpoint's `prev` changed, the segment now links to `c`. -/
theorem linked_relink_last (h h' : Heap) :
    ∀ (l : List Nat) (a b c : Nat), linked h a l b →
    (a :: l).Nodup →
    (h' (l.getLastD a)).next = c →
    (h' c).prev = l.getLastD a →
    (∀ x ∈ a :: l, x ≠ l.getLastD a → (h' x).next = (h x).next) →
    (∀ x ∈ l, (h' x).prev = (h x).prev) →
    linked h' a l c
  | [], a, b, c, _, _, hn, hp, _, _ => by
    exact ⟨by simpa using hn, by simpa using hp⟩
  | x :: xs, a, b, c, hl, hnodup, hn, hp, hnext, hprev => by
    obtain ⟨h1, h2, h3⟩ := hl
    have hlast : (x :: xs).getLastD a = xs.getLastD x := List.getLastD_cons a x xs
    have hnotin : a ∉ x :: xs := (List.nodup_cons.1 hnodup).1
    have hane : a ≠ xs.getLastD x := by
      intro heq
      exact hnotin (by rw [heq]; exact List.getLastD_mem_cons xs x)
    have hxs : (x :: xs).Nodup := (List.nodup_cons.1 hnodup).2
    refine ⟨?_, ?_, ?_⟩
    · rw [hnext a (by simp) (by rw [hlast]; exact hane), h1]
    · rw [hprev x (by simp), h2]
    · refine linked_relink_last h h' xs x b c h3 hxs ?_ ?_ ?_ ?_
      · rw [← hlast]; exact hn
      · rw [← hlast]; exact hp
      · intro y hy hyne
        refine hnext y ?_ ?_
        · rcases List.mem_cons.1 hy with heq | hmem
          · subst heq; simp
          · simp [hmem]
        · rw [hlast]; exact hyne
      · intro y hy
        exact hprev y (List.mem_cons_of_mem _ hy)

/-- `tox_list_add h head new` inserts `new` immediately after `head`:
the circular chain gains `new` as its first member. -/
theorem tox_list_add_chain (h : Heap) (head : Nat) (members : List Nat) (new : Nat)
    (hnodup : (head :: members).Nodup) (hnew : new ∉ head :: members)
    (hc : chainOf h head members) :
    chainOf (tox_list_add h head new) head (new :: members) := by
  have hnh : ¬ new = head := fun e => hnew (by simp [e])
  have hhn : ¬ head = new := fun e => hnh e.symm
  have read_next : ∀ x, ¬ x = new → ¬ x = head →
      ((tox_list_add h head new) x).next = (h x).next := by
    intro x hxn hxh
    simp [tox_list_add, tox_list_init, writeNext_next, hxn, hxh]
  have read_prev : ∀ x, ¬ x = new → ¬ x = (h head).next →
      ((tox_list_add h head new) x).prev = (h x).prev := by
    intro x hxn hxt
    simp [tox_list_add, tox_list_init, writeNext_next, writePrev_prev, hxn, hxt, hhn]
  have head_next : ((tox_list_add h head new) head).next = new := by
    simp [tox_list_add, tox_list_init, writeNext_next, hhn]
  have new_prev : ((tox_list_add h head new) new).prev = head := by
    simp [tox_list_add, tox_list_init, writePrev_prev]
  have new_next : ((tox_list_add h head new) new).next = (h head).next := by
    simp [tox_list_add, tox_list_init, writeNext_next, hnh, hhn]
  have target_prev : ¬ (h head).next = new →
      ((tox_list_add h head new) ((h head).next)).prev = new := by
    intro htn
    simp [tox_list_add, tox_list_init, writeNext_next, writePrev_prev, htn, hhn]
  cases members with
  | nil =>
    obtain ⟨hn1, hp1⟩ := hc
    refine ⟨head_next, new_prev, by rw [new_next, hn1], ?_⟩
    have := target_prev (by rw [hn1]; exact fun e => hnh e.symm)
    rw [hn1] at this
    exact this
  | cons F rest =>
    obtain ⟨hn1, hp1, hrest⟩ := hc
    have hheadmem : head ∉ F :: rest := (List.nodup_cons.1 hnodup).1
    have hFh : ¬ F = head := fun e => hheadmem (by simp [e])
    have hFn : ¬ F = new := fun e => hnew (by simp [e])
    refine ⟨head_next, new_prev, by rw [new_next, hn1], ?_, ?_⟩
    · have := target_prev (by rw [hn1]; exact hFn)
      rw [hn1] at this
      exact this
    · refine linked_congr h (tox_list_add h head new) F rest head ?_ ?_ hrest
      · intro x hx
        have hxn : ¬ x = new := fun e => hnew (by simp [e ▸ hx])
        have hxh : ¬ x = head := fun e => hheadmem (e ▸ hx)
        exact read_next x hxn hxh
      · intro x hx
        rcases List.mem_append.1 hx with hx1 | hx2
        · have hxn : ¬ x = new := fun e => by
            apply hnew
            have : x ∈ F :: rest := List.mem_cons_of_mem _ hx1
            simpa [e] using List.mem_cons_of_mem head this
          have hxF : ¬ x = F := fun e => by
            have hFrest : F ∉ rest := (List.nodup_cons.1 (List.nodup_cons.1 hnodup).2).1
            exact hFrest (e ▸ hx1)
          refine read_prev x hxn ?_
          rw [hn1]; exact hxF
        · have hxhead : x = head := by simpa using hx2
          subst hxhead
          refine read_prev x hhn ?_
          rw [hn1]; exact fun e => hFh e.symm

/-- `tox_list_remove h n` splices member `n` out of its chain: the chain keeps
all other members in order. -/
theorem tox_list_remove_chain (h : Heap) (head : Nat) (members : List Nat) (n : Nat)
    (hnodup : (head :: members).Nodup) (hmem : n ∈ members) (hc : chainOf h head members) :
    chainOf (tox_list_remove h n) head (members.erase n) := by
  obtain ⟨pre, post, hsplit⟩ := List.append_of_mem hmem
  subst hsplit
  have hhead : head ∉ pre ++ n :: post := (List.nodup_cons.1 hnodup).1
  have hmems : (pre ++ n :: post).Nodup := (List.nodup_cons.1 hnodup).2
  rw [List.nodup_append] at hmems
  obtain ⟨hpreN, hnpostN, hdisj⟩ := hmems
  have hnpre : n ∉ pre := fun hx => hdisj hx (by simp)
  have hnpost : n ∉ post := (List.nodup_cons.1 hnpostN).1
  have hpostN : post.Nodup := (List.nodup_cons.1 hnpostN).2
  have hheadpre : head ∉ pre := fun hx => hhead (List.mem_append.2 (Or.inl hx))
  have hheadpost : head ∉ post := fun hx => hhead (List.mem_append.2 (Or.inr (by simp [hx])))
  have hnh : ¬ n = head := fun e => hhead (by simp [← e])
  have herase : (pre ++ n :: post).erase n = pre ++ post := by
    rw [List.erase_append_right _ hnpre, List.erase_cons_head]
  rw [chainOf, herase]
  obtain ⟨hpre, hpost⟩ := (linked_append h pre head n post head).1 hc
  obtain ⟨hprevn, hPnext⟩ := linked_last h head pre n hpre
  obtain ⟨hnnext, hQprev⟩ := linked_first h n post head hpost
  have hPmem := List.getLastD_mem_cons pre head
  have hPn : ¬ pre.getLastD head = n := by
    intro e
    rcases List.mem_cons.1 hPmem with h1 | h1
    · exact hnh (by rw [← e, h1])
    · exact hnpre (e ▸ h1)
  have hrem : tox_list_remove h n
      = writePrev (writeNext h (pre.getLastD head) (post.headD head)) (post.headD head)
          (pre.getLastD head) := by
    have e1 : ((writeNext h ((h n).prev) ((h n).next)) n).next = (h n).next := by
      rw [writeNext_next, if_neg]
      rw [hprevn]
      exact fun e => hPn e.symm
    have e2 : ((writeNext h ((h n).prev) ((h n).next)) n).prev = (h n).prev :=
      writeNext_prev h _ _ n
    simp only [tox_list_remove]
    rw [e1, e2, hprevn, hnnext]
  rw [hrem]
  cases post with
  | nil =>
    rw [List.append_nil]
    simp only [List.headD_nil]
    rcases List.eq_nil_or_concat' pre with rfl | ⟨pre', P', rfl⟩
    · simp only [List.getLastD_nil]
      exact ⟨by rw [writePrev_next, writeNext_next, if_pos rfl],
        by rw [writePrev_prev, if_pos rfl]⟩
    · simp only [List.getLastD_concat]
      have hP'pre' : P' ∉ pre' := by
        rw [List.nodup_append] at hpreN
        exact fun hx => hpreN.2.2 hx (by simp)
      have hheadP' : ¬ head = P' := fun e => hheadpre (by simp [e])
      obtain ⟨hpre', hP'⟩ := (linked_append h pre' head P' [] n).1 hpre
      refine (linked_append _ pre' head P' [] head).2 ⟨?_, ?_, ?_⟩
      · refine linked_congr h _ head pre' P' ?_ ?_ hpre'
        · intro x hx
          have hxP' : ¬ x = P' := by
            rcases List.mem_cons.1 hx with h1 | h1
            · exact h1 ▸ hheadP'
            · exact fun e => hP'pre' (e ▸ h1)
          rw [writePrev_next, writeNext_next, if_neg hxP']
        · intro x hx
          have hxhead : ¬ x = head := by
            rcases List.mem_append.1 hx with h1 | h1
            · exact fun e => hheadpre (by simp [← e, h1])
            · have : x = P' := by simpa using h1
              exact this ▸ fun e => hheadP' e.symm
          rw [writePrev_prev, if_neg hxhead, writeNext_prev]
      · rw [writePrev_next, writeNext_next, if_pos rfl]
      · rw [writePrev_prev, if_pos rfl]
  | cons q post' =>
    have hqpost : q ∈ n :: q :: post' := by simp
    simp only [List.headD_cons]
    obtain ⟨hnq, hqprev2, hpost'⟩ := hpost
    have hqpost' : q ∉ post' := (List.nodup_cons.1 hpostN).1
    have hheadq : ¬ head = q := fun e => hheadpost (by simp [e])
    refine (linked_append _ pre head q post' head).2 ⟨?_, ?_⟩
    · refine linked_relink_last h _ pre head n q hpre
        (List.nodup_cons.2 ⟨hheadpre, hpreN⟩) ?_ ?_ ?_ ?_
      · rw [writePrev_next, writeNext_next, if_pos rfl]
      · rw [writePrev_prev, if_pos rfl]
      · intro x hx hxP
        rw [writePrev_next, writeNext_next, if_neg hxP]
      · intro x hx
        have hxq : ¬ x = q := fun e => hdisj hx (e ▸ hqpost)
        rw [writePrev_prev, if_neg hxq, writeNext_prev]
    · refine linked_congr h _ q post' head ?_ ?_ hpost'
      · intro x hx
        have hxP : ¬ x = pre.getLastD head := by
          intro e
          rcases List.mem_cons.1 hPmem with h1 | h1
          · exact hheadpost (by rw [← h1, ← e]; exact hx)
          · exact hdisj (by rw [e]; exact h1) (List.mem_cons_of_mem _ hx)
        rw [writePrev_next, writeNext_next, if_neg hxP]
      · intro x hx
        have hxq : ¬ x = q := by
          rcases List.mem_append.1 hx with h1 | h1
          · exact fun e => hqpost' (e ▸ h1)
          · have : x = head := by simpa using h1
            exact this ▸ hheadq
        rw [writePrev_prev, if_neg hxq, writeNext_prev]

/-! ### Operation sequences on a list -/

/-- One list operation: insert a fresh node after the head (`tox_list_add`
with `lst` the head, as its doc comment prescribes), or remove a member. -/
inductive ListOp where
  | add : Nat → ListOp
  | remove : Nat → ListOp
deriving DecidableEq

/-- Apply one operation to the heap. -/
def applyListOp (head : Nat) (h : Heap) : ListOp → Heap
  | ListOp.add new => tox_list_add h head new
  | ListOp.remove n => tox_list_remove h n

/-- Run a sequence of list operations. -/
def runListOps (head : Nat) (h : Heap) (ops : List ListOp) : Heap :=
  ops.foldl (applyListOp head) h

/-- Abstract effect of one operation on the member list. -/
def stepMembers (members : List Nat) : ListOp → List Nat
  | ListOp.add new => new :: members
  | ListOp.remove n => members.erase n

/-- Abstract member list after a sequence of operations. -/
def membersAfter (members : List Nat) (ops : List ListOp) : List Nat :=
  ops.foldl stepMembers members

/-- Validity of a sequence: `add` only of fresh node addresses, `remove` only
of current members (so never the head, never the same node twice, never a
removed node without re-adding). -/
def ValidOps (head : Nat) : List Nat → List ListOp → Prop
  | _, [] => True
  | members, ListOp.add new :: rest =>
      new ∉ head :: members ∧ ValidOps head (new :: members) rest
  | members, ListOp.remove n :: rest =>
      n ∈ members ∧ ValidOps head (members.erase n) rest

theorem chain_nodup_run (head : Nat) :
    ∀ (ops : List ListOp) (members : List Nat) (h : Heap),
    (head :: members).Nodup → chainOf h head members → ValidOps head members ops →
    chainOf (runListOps head h ops) head (membersAfter members ops) ∧
    (head :: membersAfter members ops).Nodup
  | [], members, h, hnodup, hc, _ => ⟨hc, hnodup⟩
  | ListOp.add new :: rest, members, h, hnodup, hc, hv => by
    obtain ⟨hnew, hv'⟩ := hv
    have hrun : runListOps head h (ListOp.add new :: rest)
        = runListOps head (tox_list_add h head new) rest := rfl
    have hmem : membersAfter members (ListOp.add new :: rest)
        = membersAfter (new :: members) rest := rfl
    rw [hrun, hmem]
    have hnodup' : (head :: new :: members).Nodup := by
      have h1 := List.nodup_cons.1 hnodup
      refine List.nodup_cons.2 ⟨?_, List.nodup_cons.2 ⟨fun hx => hnew (by simp [hx]), h1.2⟩⟩
      intro hx
      rcases List.mem_cons.1 hx with e | hx2
      · exact hnew (by simp [e])
      · exact h1.1 hx2
    exact chain_nodup_run head rest (new :: members) (tox_list_add h head new) hnodup'
      (tox_list_add_chain h head members new hnodup hnew hc) hv'
  | ListOp.remove n :: rest, members, h, hnodup, hc, hv => by
    obtain ⟨hn, hv'⟩ := hv
    have hrun : runListOps head h (ListOp.remove n :: rest)
        = runListOps head (tox_list_remove h n) rest := rfl
    have hmem : membersAfter members (ListOp.remove n :: rest)
        = membersAfter (members.erase n) rest := rfl
    rw [hrun, hmem]
    have h1 := List.nodup_cons.1 hnodup
    have hnodup' : (head :: members.erase n).Nodup :=
      List.nodup_cons.2 ⟨fun hx => h1.1 (List.mem_of_mem_erase hx), h1.2.erase n⟩
    exact chain_nodup_run head rest (members.erase n) (tox_list_remove h n) hnodup'
      (tox_list_remove_chain h head members n hnodup hn hc) hv'

/-- C3: under any valid sequence of `add`/`remove` operations starting from an
initialised head, the nodes stay one circular chain (in the order recorded by
`membersAfter`) and every node `n` of the chain satisfies
`n.next.prev == n` and `n.prev.next == n`. -/
theorem tox_list_chain_invariant (head : Nat) (h : Heap) (members : List Nat)
    (ops : List ListOp) (hnodup : (head :: members).Nodup)
    (hc : chainOf h head members) (hv : ValidOps head members ops) :
    chainOf (runListOps head h ops) head (membersAfter members ops) ∧
    mutualInv (runListOps head h ops) (head :: membersAfter members ops) := by
  obtain ⟨hchain, _⟩ := chain_nodup_run head ops members h hnodup hc hv
  exact ⟨hchain, chainOf_mutualInv _ head _ hchain⟩

/-- Witness for C3: head `0`, add node `1`, add node `2`, remove node `1`. -/
theorem tox_list_chain_invariant_witness :
    chainOf (runListOps 0 (tox_list_init (fun _ => { prev := 0, next := 0 }) 0)
        [ListOp.add 1, ListOp.add 2, ListOp.remove 1]) 0
      (membersAfter [] [ListOp.add 1, ListOp.add 2, ListOp.remove 1]) ∧
    mutualInv (runListOps 0 (tox_list_init (fun _ => { prev := 0, next := 0 }) 0)
        [ListOp.add 1, ListOp.add 2, ListOp.remove 1])
      (0 :: membersAfter [] [ListOp.add 1, ListOp.add 2, ListOp.remove 1]) :=
  tox_list_chain_invariant 0 _ [] [ListOp.add 1, ListOp.add 2, ListOp.remove 1]
    (by simp) ⟨rfl, rfl⟩ (by simp [ValidOps])

/-! ### Traversal -/

/-- The loop of `tox_list_for_each`: visit `cur` and move to `cur->prev`,
stopping on return to `stop`.  `fuel` bounds the walk (the C loop would not
terminate on a malformed chain). -/
def walkPrev (h : Heap) (stop : Nat) : Nat → Nat → List Nat
  | _, 0 => []
  | cur, fuel + 1 => if cur = stop then [] else cur :: walkPrev h stop ((h cur).prev) fuel

/-- The loop of `tox_list_for_each_reverse`: visit `cur` and move to
`cur->next`, stopping on return to `stop`. -/
def walkNext (h : Heap) (stop : Nat) : Nat → Nat → List Nat
  | _, 0 => []
  | cur, fuel + 1 => if cur = stop then [] else cur :: walkNext h stop ((h cur).next) fuel

/-- `tox_list_for_each` (toxcore lines 87-92): the iterator starts at
`lst->prev` and steps through `prev` pointers until it returns to `lst`,
yielding `GET_PARENT` of each visited node (modelled as the node address). -/
def tox_list_for_each (h : Heap) (lst : Nat) (fuel : Nat) : List Nat :=
  walkPrev h lst ((h lst).prev) fuel

/-- `tox_list_for_each_reverse` (toxcore lines 94-99): starts at `lst->next`
and steps through `next` pointers until it returns to `lst`. -/
def tox_list_for_each_reverse (h : Heap) (lst : Nat) (fuel : Nat) : List Nat :=
  walkNext h lst ((h lst).next) fuel

theorem walkNext_of_linked (h : Heap) (head : Nat) :
    ∀ (l : List Nat) (a : Nat) (fuel : Nat), linked h a l head →
    head ∉ l → l.length < fuel →
    walkNext h head ((h a).next) fuel = l
  | [], a, fuel, hl, _, hfuel => by
    match fuel, hfuel with
    | fuel + 1, _ =>
      rw [hl.1]
      simp [walkNext]
  | x :: xs, a, fuel, hl, hnotin, hfuel => by
    match fuel, hfuel with
    | fuel + 1, hfuel =>
      obtain ⟨h1, _, h3⟩ := hl
      have hxh : ¬ x = head := fun e => hnotin (by simp [e])
      rw [h1]
      simp only [walkNext, if_neg hxh]
      rw [walkNext_of_linked h head xs x fuel h3
        (fun hx => hnotin (List.mem_cons_of_mem _ hx)) (by simpa using hfuel)]

theorem walkPrev_of_linked (h : Heap) (head : Nat) (l : List Nat) :
    ∀ (b : Nat) (fuel : Nat), linked h head l b →
    head ∉ l → l.length < fuel →
    walkPrev h head ((h b).prev) fuel = l.reverse := by
  induction l using List.reverseRecOn with
  | nil =>
    intro b fuel hl _ hfuel
    match fuel, hfuel with
    | fuel + 1, _ =>
      rw [hl.2]
      simp [walkPrev]
  | append_singleton xs x ih =>
    intro b fuel hl hnotin hfuel
    match fuel, hfuel with
    | fuel + 1, hfuel =>
      obtain ⟨hxs, hx⟩ := (linked_append h xs head x [] b).1 hl
      have hxh : ¬ x = head := fun e => hnotin (by simp [e])
      rw [hx.2]
      simp only [walkPrev, if_neg hxh]
      rw [ih x fuel hxs (fun hy => hnotin (by simp [hy])) (by simpa using hfuel)]
      simp

/-- C4 (amended): on a chain of `N ≥ 1` members, `tox_list_for_each` visits
exactly the `N` host records, walking backward (`prev`) from the node just
before the head, i.e. in reverse link order; `tox_list_for_each_reverse`
visits them in link order, walking forward (`next`) from the node just after
the head; the two traversals visit the same records in opposite orders. -/
theorem tox_list_for_each_visits (h : Heap) (head : Nat) (members : List Nat)
    (hc : chainOf h head members) (hhm : head ∉ members) (hN : 1 ≤ members.length) :
    tox_list_for_each h head (members.length + 1) = members.reverse ∧
    tox_list_for_each_reverse h head (members.length + 1) = members ∧
    tox_list_for_each h head (members.length + 1)
      = (tox_list_for_each_reverse h head (members.length + 1)).reverse ∧
    (tox_list_for_each h head (members.length + 1)).length = members.length := by
  have h1 : tox_list_for_each h head (members.length + 1) = members.reverse :=
    walkPrev_of_linked h head members head (members.length + 1) hc hhm (by omega)
  have h2 : tox_list_for_each_reverse h head (members.length + 1) = members :=
    walkNext_of_linked h head members head (members.length + 1) hc hhm (by omega)
  refine ⟨h1, h2, ?_, ?_⟩
  · rw [h1, h2]
  · rw [h1]; simp

/-- Witness for C4 (amended) on the concrete chain `0 → 2 → 1 → 0` built by
`add 1; add 2` on head `0`. -/
theorem tox_list_for_each_visits_witness :
    tox_list_for_each (runListOps 0 (tox_list_init (fun _ => { prev := 0, next := 0 }) 0)
        [ListOp.add 1, ListOp.add 2]) 0 3 = [1, 2] ∧
    tox_list_for_each_reverse (runListOps 0 (tox_list_init (fun _ => { prev := 0, next := 0 }) 0)
        [ListOp.add 1, ListOp.add 2]) 0 3 = [2, 1] ∧
    tox_list_for_each (runListOps 0 (tox_list_init (fun _ => { prev := 0, next := 0 }) 0)
        [ListOp.add 1, ListOp.add 2]) 0 3
      = (tox_list_for_each_reverse
          (runListOps 0 (tox_list_init (fun _ => { prev := 0, next := 0 }) 0)
            [ListOp.add 1, ListOp.add 2]) 0 3).reverse ∧
    (tox_list_for_each (runListOps 0 (tox_list_init (fun _ => { prev := 0, next := 0 }) 0)
        [ListOp.add 1, ListOp.add 2]) 0 3).length = 2 :=
  tox_list_for_each_visits _ 0 [2, 1] ⟨rfl, rfl, rfl, rfl, rfl, rfl⟩ (by decide) (by decide)

/-- Counterexample to C4 as stated: on the chain `0 → 2 → 1 → 0` (members
`[2, 1]` in link order), `tox_list_for_each` yields `[1, 2]` — it walks
`prev` from the node just before the head — not `[2, 1]`, the link-order
visit the claim ascribes to it (that is what `tox_list_for_each_reverse`
yields). -/
theorem tox_list_for_each_not_forward :
    tox_list_for_each (runListOps 0 (tox_list_init (fun _ => { prev := 0, next := 0 }) 0)
        [ListOp.add 1, ListOp.add 2]) 0 5 = [1, 2] ∧
    tox_list_for_each_reverse (runListOps 0 (tox_list_init (fun _ => { prev := 0, next := 0 }) 0)
        [ListOp.add 1, ListOp.add 2]) 0 5 = [2, 1] ∧
    tox_list_for_each (runListOps 0 (tox_list_init (fun _ => { prev := 0, next := 0 }) 0)
        [ListOp.add 1, ListOp.add 2]) 0 5 ≠ [2, 1] := by
  decide

/-! ### Generic quicksort: `make_quick_sort` (toxcore lines 225-248)

`make_quick_sort(type)` generates, for each element type, the same function
body; the model is a single definition over an arbitrary inhabited element
type.  The C function sorts `arr[0..n-1]` in place through pointers `_l_`,
`_r_`; the model carries the buffer as a `List α` and the two converging
indices as `Int` (the right index ends at `-1` when every element compares
greater than the pivot). -/

section QuickSort

variable {α : Type} [Inhabited α]

/-- The swap in the partition loop: `_t_ = *_l_; *_l_++ = *_r_; *_r_-- = _t_`
(the index moves are handled by the caller). -/
def listSwap (ys : List α) (i j : Nat) : List α :=
  (ys.set i (ys.getD j default)).set j (ys.getD i default)

@[simp] theorem listSwap_length (ys : List α) (i j : Nat) :
    (listSwap ys i j).length = ys.length := by
  simp [listSwap]

theorem headSwap_perm : ∀ (t : List α) (m : Nat) (a : α), m < t.length →
    (t.getD m default :: t.set m a).Perm (a :: t)
  | b :: t', 0, a, _ => by
    simpa using List.Perm.swap a b t'
  | b :: t', m + 1, a, hm => by
    have ih := headSwap_perm t' m a (by simpa using hm)
    simp only [List.getD_cons_succ, List.set_cons_succ]
    exact (List.Perm.swap b _ _).trans ((List.Perm.cons b ih).trans (List.Perm.swap a b t'))

theorem listSwap_perm : ∀ (ys : List α) (i j : Nat), i < ys.length → j < ys.length →
    (listSwap ys i j).Perm ys
  | a :: t, 0, 0, _, _ => by
    simp [listSwap]
  | a :: t, 0, m + 1, _, hj => by
    simp only [listSwap, List.getD_cons_succ, List.getD_cons_zero,
      List.set_cons_zero, List.set_cons_succ]
    exact headSwap_perm t m a (by simpa using hj)
  | a :: t, n + 1, 0, hi, _ => by
    simp only [listSwap, List.getD_cons_succ, List.getD_cons_zero,
      List.set_cons_zero, List.set_cons_succ]
    exact headSwap_perm t n a (by simpa using hi)
  | a :: t, n + 1, m + 1, hi, hj => by
    simp only [listSwap, List.getD_cons_succ, List.set_cons_succ]
    exact List.Perm.cons a
      (listSwap_perm t n m (by simpa using hi) (by simpa using hj))

/-- The partition loop of the generated quicksort: `_l_` advances while its
element compares `-1` against the pivot, `_r_` retreats while its element
compares `1`, otherwise the two elements are swapped and both indices move.
Returns the buffer with the final values of `_l_` and `_r_` (as offsets from
`arr`). -/
def tox_partition (cmp : α → α → Int) (p : α) (ys : List α) (l r : Int) :
    List α × Int × Int :=
  if l ≤ r then
    if cmp (ys.getD l.toNat default) p = -1 then tox_partition cmp p ys (l + 1) r
    else if cmp (ys.getD r.toNat default) p = 1 then tox_partition cmp p ys l (r - 1)
    else tox_partition cmp p (listSwap ys l.toNat r.toNat) (l + 1) (r - 1)
  else (ys, l, r)
termination_by (r + 1 - l).toNat
decreasing_by all_goals omega

/-- `type##_quick_sort`: return at once when `n < 2`; otherwise pick the
middle element `arr[n / 2]` as pivot, run the partition loop from `_l_ = arr`
and `_r_ = arr + n - 1`, then recurse on `arr[0 .. r]` and on
`arr[l .. n-1]` (the slice between `r` and `l` stays in place).  `fuel`
bounds the recursion depth, since for an improper comparator the C recursion
need not terminate; `none` reports exhausted fuel. -/
def quick_sort (cmp : α → α → Int) : Nat → List α → Option (List α)
  | 0, _ => none
  | fuel + 1, arr =>
    if arr.length < 2 then some arr
    else
      let p := arr.getD (arr.length / 2) default
      let res := tox_partition cmp p arr 0 ((arr.length : Int) - 1)
      match quick_sort cmp fuel (res.1.take (res.2.2 + 1).toNat),
            quick_sort cmp fuel (res.1.drop res.2.1.toNat) with
      | some left, some right =>
          some (left ++
            ((res.1.drop (res.2.2 + 1).toNat).take (res.2.1 - (res.2.2 + 1)).toNat ++ right))
      | _, _ => none

theorem tox_partition_length (cmp : α → α → Int) (p : α) (ys : List α) (l r : Int) :
    (tox_partition cmp p ys l r).1.length = ys.length := by
  rw [tox_partition]
  split
  · split
    · exact tox_partition_length cmp p ys (l + 1) r
    · split
      · exact tox_partition_length cmp p ys l (r - 1)
      · rw [tox_partition_length cmp p (listSwap ys l.toNat r.toNat) (l + 1) (r - 1)]
        exact listSwap_length ys l.toNat r.toNat
  · rfl
termination_by (r + 1 - l).toNat
decreasing_by all_goals omega

theorem tox_partition_perm (cmp : α → α → Int) (p : α) (ys : List α) (l r : Int)
    (hl : 0 ≤ l) (hr : r < (ys.length : Int)) :
    (tox_partition cmp p ys l r).1.Perm ys := by
  rw [tox_partition]
  split
  · next hlr =>
    split
    · exact tox_partition_perm cmp p ys (l + 1) r (by omega) hr
    · split
      · exact tox_partition_perm cmp p ys l (r - 1) hl (by omega)
      · refine List.Perm.trans
          (tox_partition_perm cmp p (listSwap ys l.toNat r.toNat) (l + 1) (r - 1)
            (by omega) (by rw [listSwap_length]; omega)) ?_
        exact listSwap_perm ys l.toNat r.toNat (by omega) (by omega)
  · exact List.Perm.refl ys
termination_by (r + 1 - l).toNat
decreasing_by all_goals omega

theorem tox_partition_bounds (cmp : α → α → Int) (p : α) (ys : List α) (l r : Int)
    (hlr : l ≤ r + 2) :
    l ≤ (tox_partition cmp p ys l r).2.1 ∧
    (tox_partition cmp p ys l r).2.2 ≤ r ∧
    (tox_partition cmp p ys l r).2.2 < (tox_partition cmp p ys l r).2.1 ∧
    (tox_partition cmp p ys l r).2.1 ≤ (tox_partition cmp p ys l r).2.2 + 2 ∧
    (tox_partition cmp p ys l r).2.1 ≤ max l (r + 1) ∧
    min r (l - 1) ≤ (tox_partition cmp p ys l r).2.2 := by
  rw [tox_partition]
  split
  · next hle =>
    split
    · have ih := tox_partition_bounds cmp p ys (l + 1) r (by omega)
      exact ⟨by omega, by omega, ih.2.2.1, ih.2.2.2.1, by omega, by omega⟩
    · split
      · have ih := tox_partition_bounds cmp p ys l (r - 1) (by omega)
        exact ⟨by omega, by omega, ih.2.2.1, ih.2.2.2.1, by omega, by omega⟩
      · have ih := tox_partition_bounds cmp p (listSwap ys l.toNat r.toNat)
          (l + 1) (r - 1) (by omega)
        exact ⟨by omega, by omega, ih.2.2.1, ih.2.2.2.1, by omega, by omega⟩
  · refine ⟨?_, ?_, ?_, ?_, ?_, ?_⟩ <;> dsimp only <;> omega
termination_by (r + 1 - l).toNat
decreasing_by all_goals omega

theorem listSwap_getD_right (ys : List α) (i j : Nat) (hj : j < ys.length) :
    (listSwap ys i j).getD j default = ys.getD i default := by
  have hj' : j < (ys.set i (ys.getD j default)).length := by simpa using hj
  rw [listSwap, List.getD_eq_getElem?_getD, List.getElem?_set_self hj', Option.getD_some]

theorem listSwap_getD_left (ys : List α) (i j : Nat) (hi : i < ys.length) :
    (listSwap ys i j).getD i default = ys.getD j default := by
  by_cases hij : i = j
  · subst hij; exact listSwap_getD_right ys i i hi
  · rw [listSwap, List.getD_eq_getElem?_getD,
      List.getElem?_set_ne (fun e => hij e.symm),
      List.getElem?_set_self hi, Option.getD_some]

theorem listSwap_getD_other (ys : List α) (i j k : Nat) (hki : ¬ k = i) (hkj : ¬ k = j) :
    (listSwap ys i j).getD k default = ys.getD k default := by
  rw [listSwap, List.getD_eq_getElem?_getD,
    List.getElem?_set_ne (fun e => hkj e.symm),
    List.getElem?_set_ne (fun e => hki e.symm),
    ← List.getD_eq_getElem?_getD]

theorem tox_partition_sides (cmp : α → α → Int) (p : α) (ys : List α) (l r : Int)
    (hl : 0 ≤ l) (hr : r ≤ (ys.length : Int) - 1)
    (hP2 : ∀ i : Int, 0 ≤ i → i < l → ¬ cmp (ys.getD i.toNat default) p = 1)
    (hP3 : ∀ i : Int, r < i → i ≤ (ys.length : Int) - 1 →
      ¬ cmp (ys.getD i.toNat default) p = -1) :
    (∀ i : Int, 0 ≤ i → i < (tox_partition cmp p ys l r).2.1 →
      ¬ cmp ((tox_partition cmp p ys l r).1.getD i.toNat default) p = 1) ∧
    (∀ i : Int, (tox_partition cmp p ys l r).2.2 < i → i ≤ (ys.length : Int) - 1 →
      ¬ cmp ((tox_partition cmp p ys l r).1.getD i.toNat default) p = -1) := by
  rw [tox_partition]
  split
  · next hle =>
    split
    · next hcl =>
      refine tox_partition_sides cmp p ys (l + 1) r (by omega) hr ?_ hP3
      intro i hi0 hil
      by_cases h : i < l
      · exact hP2 i hi0 h
      · have heq : i = l := by omega
        subst heq
        rw [hcl]
        omega
    · next hncl =>
      split
      · next hcr =>
        refine tox_partition_sides cmp p ys l (r - 1) hl (by omega) hP2 ?_
        intro i hir hi1
        by_cases h : r < i
        · exact hP3 i h hi1
        · have heq : i = r := by omega
          subst heq
          rw [hcr]
          omega
      · next hncr =>
        have ih := tox_partition_sides cmp p (listSwap ys l.toNat r.toNat) (l + 1) (r - 1)
          (by omega) (by simp only [listSwap_length]; omega) ?_ ?_
        · simpa only [listSwap_length] using ih
        · intro i hi0 hil
          by_cases h : i < l
          · rw [listSwap_getD_other ys l.toNat r.toNat i.toNat (by omega) (by omega)]
            exact hP2 i hi0 h
          · have heq : i = l := by omega
            rw [heq, listSwap_getD_left ys l.toNat r.toNat (by omega)]
            exact hncr
        · intro i hir hi1
          simp only [listSwap_length] at hi1
          by_cases h : r < i
          · rw [listSwap_getD_other ys l.toNat r.toNat i.toNat (by omega) (by omega)]
            exact hP3 i h hi1
          · have heq : i = r := by omega
            rw [heq, listSwap_getD_right ys l.toNat r.toNat (by omega)]
            exact hncl
  · dsimp only
    exact ⟨hP2, hP3⟩
termination_by (r + 1 - l).toNat
decreasing_by all_goals omega

theorem tox_partition_strict (cmp : α → α → Int) (p : α) (hp : cmp p p = 0)
    (ys : List α) (l r : Int) (hl : 0 ≤ l) (hr : r ≤ (ys.length : Int) - 1)
    (hAB : (∃ m : Int, l ≤ m ∧ m ≤ r ∧ ys.getD m.toNat default = p) ∨
      (1 ≤ l ∧ r ≤ (ys.length : Int) - 2)) :
    1 ≤ (tox_partition cmp p ys l r).2.1 ∧
    (tox_partition cmp p ys l r).2.2 ≤ (ys.length : Int) - 2 := by
  rw [tox_partition]
  split
  · next hle =>
    split
    · next hcl =>
      refine tox_partition_strict cmp p hp ys (l + 1) r (by omega) hr ?_
      rcases hAB with ⟨m, hm1, hm2, hm3⟩ | hB
      · left
        refine ⟨m, ?_, hm2, hm3⟩
        have hne : ¬ m = l := by
          intro e
          rw [e] at hm3
          rw [hm3] at hcl
          omega
        omega
      · right
        exact ⟨by omega, hB.2⟩
    · next hncl =>
      split
      · next hcr =>
        refine tox_partition_strict cmp p hp ys l (r - 1) hl (by omega) ?_
        rcases hAB with ⟨m, hm1, hm2, hm3⟩ | hB
        · left
          refine ⟨m, hm1, ?_, hm3⟩
          have hne : ¬ m = r := by
            intro e
            rw [e] at hm3
            rw [hm3] at hcr
            omega
          omega
        · right
          exact ⟨hB.1, by omega⟩
      · next hncr =>
        have ih := tox_partition_strict cmp p hp (listSwap ys l.toNat r.toNat) (l + 1) (r - 1)
          (by omega) (by simp only [listSwap_length]; omega)
          (Or.inr ⟨by omega, by simp only [listSwap_length]; omega⟩)
        simpa only [listSwap_length] using ih
  · dsimp only
    rcases hAB with ⟨m, hm1, hm2, _⟩ | hB
    · next hgt => omega
    · exact hB
termination_by (r + 1 - l).toNat
decreasing_by all_goals omega

theorem mem_take_getD {l : List α} {k : Nat} {x : α} (hx : x ∈ l.take k) :
    ∃ i : Nat, i < k ∧ i < l.length ∧ l.getD i default = x := by
  obtain ⟨i, hi, heq⟩ := List.mem_iff_getElem.1 hx
  have hik : i < k := by simp [List.length_take] at hi; omega
  have hil : i < l.length := by simp [List.length_take] at hi; omega
  refine ⟨i, hik, hil, ?_⟩
  rw [List.getD_eq_getElem?_getD, List.getElem?_eq_getElem hil, Option.getD_some]
  rw [← heq, List.getElem_take]

theorem mem_drop_getD {l : List α} {k : Nat} {x : α} (hx : x ∈ l.drop k) :
    ∃ i : Nat, k ≤ i ∧ i < l.length ∧ l.getD i default = x := by
  obtain ⟨j, hj, heq⟩ := List.mem_iff_getElem.1 hx
  have hjl : k + j < l.length := by simp [List.length_drop] at hj; omega
  refine ⟨k + j, by omega, hjl, ?_⟩
  rw [List.getD_eq_getElem?_getD, List.getElem?_eq_getElem hjl, Option.getD_some]
  rw [← heq, List.getElem_drop]

theorem getD_drop (l : List α) (k i : Nat) :
    (l.drop k).getD i default = l.getD (k + i) default := by
  rw [List.getD_eq_getElem?_getD, List.getElem?_drop, ← List.getD_eq_getElem?_getD]

theorem quick_sort_succ_some (cmp : α → α → Int) (fuel : Nat) (arr sl sr ys : List α)
    (l r : Int) (h2 : ¬ arr.length < 2)
    (hres : tox_partition cmp (arr.getD (arr.length / 2) default) arr 0
      ((arr.length : Int) - 1) = (ys, l, r))
    (hl : quick_sort cmp fuel (ys.take (r + 1).toNat) = some sl)
    (hr : quick_sort cmp fuel (ys.drop l.toNat) = some sr) :
    quick_sort cmp (fuel + 1) arr
      = some (sl ++ ((ys.drop (r + 1).toNat).take (l - (r + 1)).toNat ++ sr)) := by
  simp only [quick_sort]
  rw [if_neg h2]
  simp only [hres, hl, hr]

theorem quick_sort_total (cmp : α → α → Int) (hself : ∀ x : α, cmp x x = 0)
    (fuel : Nat) : ∀ (arr : List α), arr.length < fuel →
    ∃ out, quick_sort cmp fuel arr = some out := by
  induction fuel with
  | zero => intro arr h; exact absurd h (by omega)
  | succ fuel ih =>
    intro arr hlt
    by_cases h2 : arr.length < 2
    · exact ⟨arr, by simp only [quick_sort]; rw [if_pos h2]⟩
    · rcases hpart : tox_partition cmp (arr.getD (arr.length / 2) default) arr 0
        ((arr.length : Int) - 1) with ⟨ys, l, r⟩
      have hlen := tox_partition_length cmp (arr.getD (arr.length / 2) default) arr 0
        ((arr.length : Int) - 1)
      have hb := tox_partition_bounds cmp (arr.getD (arr.length / 2) default) arr 0
        ((arr.length : Int) - 1) (by omega)
      have hstrict := tox_partition_strict cmp (arr.getD (arr.length / 2) default)
        (hself _) arr 0 ((arr.length : Int) - 1) (by omega) (by omega)
        (Or.inl ⟨((arr.length / 2 : Nat) : Int), by omega, by omega, rfl⟩)
      rw [hpart] at hlen hb hstrict
      dsimp only at hlen hb hstrict
      obtain ⟨sl, hsl⟩ := ih (ys.take (r + 1).toNat) (by rw [List.length_take]; omega)
      obtain ⟨sr, hsr⟩ := ih (ys.drop l.toNat) (by rw [List.length_drop]; omega)
      exact ⟨_, quick_sort_succ_some cmp fuel arr sl sr ys l r h2 hpart hsl hsr⟩

theorem pairwise_short (R : α → α → Prop) : ∀ (l : List α), l.length < 2 → l.Pairwise R
  | [], _ => List.Pairwise.nil
  | [a], _ => by simp
  | a :: b :: t, h => by
    simp only [List.length_cons] at h
    exact absurd h (by omega)

theorem quick_sort_spec (cmp : α → α → Int)
    (hmem : ∀ x y, cmp x y = -1 ∨ cmp x y = 0 ∨ cmp x y = 1)
    (hanti : ∀ x y, cmp x y = - cmp y x)
    (htrans : ∀ x y z, ¬ cmp x y = 1 → ¬ cmp y z = 1 → ¬ cmp x z = 1)
    (fuel : Nat) : ∀ (arr : List α), arr.length < fuel →
    ∃ out, quick_sort cmp fuel arr = some out ∧ out.Perm arr ∧
      out.Pairwise (fun a b => ¬ cmp a b = 1) := by
  have hself : ∀ x : α, cmp x x = 0 := fun x => by have := hanti x x; omega
  induction fuel with
  | zero => intro arr h; exact absurd h (by omega)
  | succ fuel ih =>
    intro arr hlt
    by_cases h2 : arr.length < 2
    · exact ⟨arr, by simp only [quick_sort]; rw [if_pos h2], List.Perm.refl arr,
        pairwise_short _ arr h2⟩
    · rcases hpart : tox_partition cmp (arr.getD (arr.length / 2) default) arr 0
        ((arr.length : Int) - 1) with ⟨ys, l, r⟩
      have hlen := tox_partition_length cmp (arr.getD (arr.length / 2) default) arr 0
        ((arr.length : Int) - 1)
      have hperm := tox_partition_perm cmp (arr.getD (arr.length / 2) default) arr 0
        ((arr.length : Int) - 1) (by omega) (by omega)
      have hb := tox_partition_bounds cmp (arr.getD (arr.length / 2) default) arr 0
        ((arr.length : Int) - 1) (by omega)
      have hstrict := tox_partition_strict cmp (arr.getD (arr.length / 2) default)
        (hself _) arr 0 ((arr.length : Int) - 1) (by omega) (by omega)
        (Or.inl ⟨((arr.length / 2 : Nat) : Int), by omega, by omega, rfl⟩)
      have hsides := tox_partition_sides cmp (arr.getD (arr.length / 2) default) arr 0
        ((arr.length : Int) - 1) (by omega) (by omega)
        (by intro i h1 h3; omega) (by intro i h1 h3; omega)
      rw [hpart] at hlen hperm hb hstrict hsides
      dsimp only at hlen hperm hb hstrict hsides
      obtain ⟨hb1, hb2, hb3, hb4, hb5, hb6⟩ := hb
      obtain ⟨hs1, hs2⟩ := hstrict
      obtain ⟨hP2, hP3⟩ := hsides
      obtain ⟨sl, hsl, hslperm, hslpw⟩ := ih (ys.take (r + 1).toNat)
        (by rw [List.length_take]; omega)
      obtain ⟨sr, hsr, hsrperm, hsrpw⟩ := ih (ys.drop l.toNat)
        (by rw [List.length_drop]; omega)
      refine ⟨_, quick_sort_succ_some cmp fuel arr sl sr ys l r h2 hpart hsl hsr, ?_, ?_⟩
      · have hsplit : ys.take (r + 1).toNat ++
            ((ys.drop (r + 1).toNat).take (l - (r + 1)).toNat ++ ys.drop l.toNat) = ys := by
          have e2 : ys.drop l.toNat = (ys.drop (r + 1).toNat).drop ((l - (r + 1)).toNat) := by
            rw [List.drop_drop]
            congr 1
            omega
          rw [e2, List.take_append_drop, List.take_append_drop]
        rw [← hsplit] at hperm
        exact (hslperm.append ((List.Perm.refl _).append hsrperm)).trans hperm
      · have hFleft : ∀ x ∈ ys.take (r + 1).toNat,
            ¬ cmp x (arr.getD (arr.length / 2) default) = 1 := by
          intro x hx
          obtain ⟨i, hik, hil, hgd⟩ := mem_take_getD hx
          have hthis := hP2 (i : Int) (by omega) (by omega)
          rw [Int.toNat_ofNat, hgd] at hthis
          exact hthis
        have hFmid : ∀ x ∈ (ys.drop (r + 1).toNat).take (l - (r + 1)).toNat,
            cmp x (arr.getD (arr.length / 2) default) = 0 := by
          intro x hx
          obtain ⟨i, hik, hil, hgd⟩ := mem_take_getD hx
          rw [getD_drop] at hgd
          rw [List.length_drop] at hil
          have h1 := hP2 (((r + 1).toNat + i : Nat) : Int) (by omega) (by omega)
          have h3 := hP3 (((r + 1).toNat + i : Nat) : Int) (by omega) (by omega)
          rw [Int.toNat_ofNat, hgd] at h1 h3
          rcases hmem x (arr.getD (arr.length / 2) default) with h | h | h
          · exact absurd h h3
          · exact h
          · exact absurd h h1
        have hFright : ∀ x ∈ ys.drop l.toNat,
            ¬ cmp x (arr.getD (arr.length / 2) default) = -1 := by
          intro x hx
          obtain ⟨i, hik, hil, hgd⟩ := mem_drop_getD hx
          have hthis := hP3 (i : Int) (by omega) (by omega)
          rw [Int.toNat_ofNat, hgd] at hthis
          exact hthis
        have hLe_p_of : ∀ y, ¬ cmp y (arr.getD (arr.length / 2) default) = -1 →
            ¬ cmp (arr.getD (arr.length / 2) default) y = 1 := by
          intro y hy h1
          have := hanti y (arr.getD (arr.length / 2) default)
          omega
        have hslmem : ∀ x ∈ sl, ¬ cmp x (arr.getD (arr.length / 2) default) = 1 :=
          fun x hx => hFleft x (hslperm.mem_iff.1 hx)
        have hsrmem : ∀ x ∈ sr, ¬ cmp x (arr.getD (arr.length / 2) default) = -1 :=
          fun x hx => hFright x (hsrperm.mem_iff.1 hx)
        rw [List.pairwise_append]
        refine ⟨hslpw, ?_, ?_⟩
        · rw [List.pairwise_append]
          refine ⟨?_, hsrpw, ?_⟩
          · refine List.pairwise_of_forall_mem_list ?_
            intro a ha b hb
            exact htrans a (arr.getD (arr.length / 2) default) b
              (by have := hFmid a ha; omega)
              (hLe_p_of b (by have := hFmid b hb; omega))
          · intro a ha b hb
            exact htrans a (arr.getD (arr.length / 2) default) b
              (by have := hFmid a ha; omega)
              (hLe_p_of b (hsrmem b hb))
        · intro a ha b hb
          rcases List.mem_append.1 hb with hbm | hbr
          · exact htrans a (arr.getD (arr.length / 2) default) b (hslmem a ha)
              (hLe_p_of b (by have := hFmid b hbm; omega))
          · exact htrans a (arr.getD (arr.length / 2) default) b (hslmem a ha)
              (hLe_p_of b (hsrmem b hbr))

/-- C1: for every array and every comparator that returns exactly `-1`, `0`,
`1` and induces a total order (antisymmetric three-way comparison with a
transitive induced `≤`), the generated quicksort called with `n` the array
length and pivot `arr[n / 2]` terminates within recursion depth `n + 1` and
returns a permutation of the input that is sorted ascending according to the
comparator. -/
theorem quick_sort_correct (cmp : α → α → Int)
    (hmem : ∀ x y, cmp x y = -1 ∨ cmp x y = 0 ∨ cmp x y = 1)
    (hanti : ∀ x y, cmp x y = - cmp y x)
    (htrans : ∀ x y z, ¬ cmp x y = 1 → ¬ cmp y z = 1 → ¬ cmp x z = 1)
    (arr : List α) :
    (quick_sort cmp (arr.length + 1) arr).isSome = true ∧
    ((quick_sort cmp (arr.length + 1) arr).getD []).Perm arr ∧
    ((quick_sort cmp (arr.length + 1) arr).getD []).Pairwise
      (fun a b => ¬ cmp a b = 1) := by
  obtain ⟨out, hout, hperm, hpw⟩ :=
    quick_sort_spec cmp hmem hanti htrans (arr.length + 1) arr (by omega)
  rw [hout]
  exact ⟨rfl, hperm, hpw⟩

/-- C9 (amended): the generated quicksort terminates for every comparator
whose diagonal is `0` (in particular for every comparator meeting the
documented `-1/0/1` contract): recursion depth `length + 1` suffices; for
every comparator an array of fewer than two elements is returned at once
unchanged; and under the diagonal-zero hypothesis both recursive calls
operate on ranges strictly shorter than `n`. -/
theorem quick_sort_terminates (cmp : α → α → Int)
    (hself : ∀ x : α, cmp x x = 0) (arr : List α) :
    (quick_sort cmp (arr.length + 1) arr).isSome = true ∧
    (∀ (cmp' : α → α → Int) (fuel : Nat) (brr : List α), brr.length < 2 →
      quick_sort cmp' (fuel + 1) brr = some brr) ∧
    (∀ (brr : List α), 2 ≤ brr.length →
      (tox_partition cmp (brr.getD (brr.length / 2) default) brr 0
        ((brr.length : Int) - 1)).2.2 + 1 < (brr.length : Int) ∧
      (brr.length : Int) - (tox_partition cmp (brr.getD (brr.length / 2) default) brr 0
        ((brr.length : Int) - 1)).2.1 < (brr.length : Int)) := by
  refine ⟨?_, ?_, ?_⟩
  · obtain ⟨out, hout⟩ := quick_sort_total cmp hself (arr.length + 1) arr (by omega)
    rw [hout]
    rfl
  · intro cmp' fuel brr h2
    simp only [quick_sort]
    rw [if_pos h2]
  · intro brr hn
    have hstrict := tox_partition_strict cmp (brr.getD (brr.length / 2) default)
      (hself _) brr 0 ((brr.length : Int) - 1) (by omega) (by omega)
      (Or.inl ⟨((brr.length / 2 : Nat) : Int), by omega, by omega, rfl⟩)
    exact ⟨by omega, by omega⟩

/-- `quick_sort` runs out of every fuel bound: the fuel-indexed image of a
non-terminating execution of the C recursion. -/
def qs_diverges (cmp : α → α → Int) (arr : List α) : Prop :=
  ∀ fuel, quick_sort cmp fuel arr = none

theorem quick_sort_succ_none_left (cmp : α → α → Int) (fuel : Nat) (arr ys : List α)
    (l r : Int) (h2 : ¬ arr.length < 2)
    (hres : tox_partition cmp (arr.getD (arr.length / 2) default) arr 0
      ((arr.length : Int) - 1) = (ys, l, r))
    (hl : quick_sort cmp fuel (ys.take (r + 1).toNat) = none) :
    quick_sort cmp (fuel + 1) arr = none := by
  simp only [quick_sort]
  rw [if_neg h2]
  simp only [hres, hl]

end QuickSort

/-- The ascending three-way comparator on integers. -/
def intCmp (a b : Int) : Int := if a < b then -1 else if b < a then 1 else 0

theorem intCmp_mem (x y : Int) : intCmp x y = -1 ∨ intCmp x y = 0 ∨ intCmp x y = 1 := by
  unfold intCmp
  split_ifs <;> simp

theorem intCmp_anti (x y : Int) : intCmp x y = - intCmp y x := by
  unfold intCmp
  split_ifs <;> omega

theorem intCmp_trans (x y z : Int) :
    ¬ intCmp x y = 1 → ¬ intCmp y z = 1 → ¬ intCmp x z = 1 := by
  intro h1 h2 h3
  simp only [intCmp] at h1 h2 h3
  split_ifs at h1 h2 h3 <;> omega

theorem intCmp_self (x : Int) : intCmp x x = 0 := by
  simp [intCmp]

unseal tox_partition in
/-- Witness for C1: sorting `[3, 1, 2]` with the ascending integer comparator
satisfies the general theorem, and concretely yields `[1, 2, 3]`; an
already-sorted and a reverse-sorted input also both yield `[1, 2, 3]`. -/
theorem quick_sort_correct_witness :
    ((quick_sort intCmp ([3, 1, 2].length + 1) [3, 1, 2]).isSome = true ∧
      ((quick_sort intCmp ([3, 1, 2].length + 1) [3, 1, 2]).getD []).Perm [3, 1, 2] ∧
      ((quick_sort intCmp ([3, 1, 2].length + 1) [3, 1, 2]).getD []).Pairwise
        (fun a b => ¬ intCmp a b = 1)) ∧
    quick_sort intCmp 4 [3, 1, 2] = some [1, 2, 3] ∧
    quick_sort intCmp 4 [1, 2, 3] = some [1, 2, 3] ∧
    quick_sort intCmp 4 [3, 2, 1] = some [1, 2, 3] :=
  ⟨quick_sort_correct intCmp intCmp_mem intCmp_anti intCmp_trans [3, 1, 2],
   by decide, by decide, by decide⟩

/-- Witness for C9 (amended) at the concrete comparator `intCmp`: the sort of
`[3, 1, 2]` terminates within fuel 4, a one-element array is returned at once,
and on `[3, 1, 2]` both recursive ranges are strictly shorter than 3. -/
theorem quick_sort_terminates_witness :
    (quick_sort intCmp ([3, 1, 2].length + 1) [3, 1, 2]).isSome = true ∧
    quick_sort intCmp 5 [7] = some [7] ∧
    ((tox_partition intCmp ([3, 1, 2].getD ([3, 1, 2].length / 2) default) [3, 1, 2] 0
        (([3, 1, 2].length : Int) - 1)).2.2 + 1 < (([3, 1, 2].length : Nat) : Int) ∧
      (([3, 1, 2].length : Nat) : Int) -
        (tox_partition intCmp ([3, 1, 2].getD ([3, 1, 2].length / 2) default) [3, 1, 2] 0
          (([3, 1, 2].length : Int) - 1)).2.1 < (([3, 1, 2].length : Nat) : Int)) :=
  ⟨(quick_sort_terminates intCmp intCmp_self [3, 1, 2]).1,
   (quick_sort_terminates intCmp intCmp_self [3, 1, 2]).2.1 intCmp 4 [7] (by decide),
   (quick_sort_terminates intCmp intCmp_self [3, 1, 2]).2.2 [3, 1, 2] (by decide)⟩

unseal tox_partition in
/-- Counterexample to C9 as stated: for the comparator that constantly
returns `-1` (a value the contract allows pointwise but an improper three-way
comparison), on the two-element array `[0, 1]` the partition ends with
`l = 2`, `r = 1`, so the first recursive call covers `r - arr + 1 = 2 = n`
elements — not a strictly shorter range — and the recursion never
terminates: every fuel bound is exhausted. -/
theorem quick_sort_diverges_on_const_neg_one :
    qs_diverges (fun _ _ => (-1 : Int)) ([0, 1] : List Int) ∧
    tox_partition (fun _ _ => (-1 : Int))
      (([0, 1] : List Int).getD ([0, 1].length / 2) default) [0, 1] 0
      (([0, 1].length : Int) - 1) = ([0, 1], 2, 1) := by
  constructor
  · intro fuel
    induction fuel with
    | zero => rfl
    | succ fuel ih =>
      refine quick_sort_succ_none_left (fun _ _ => (-1 : Int)) fuel [0, 1] [0, 1] 2 1
        (by decide) (by decide) ?_
      exact ih
  · decide

end MiscTools
